import Mathlib

/-!
Verification development for the EthicalBank backend (FastAPI + MongoDB).

This file shallowly embeds the consent registry, the attribute
reconciliation engine, the attribute-identifier normalizer, the
permissions-update operation and the savings operations of the backend
(`services/privacy.py`, `services/ai.py`, `services/chatbot.py`,
`services/ai_insights.py`, `services/savings.py`) and proves or refutes
the specified properties about them.

Modelling conventions:
* Python strings are Lean `String`s; character-level work uses `List Char`
  (`String.data`).  `str.strip()`, `str.replace(pat, rep)` (pattern
  nonempty, as at every call site), the substring test `pat in s` and
  `str.startswith` are embedded below; `str.lower()` maps
  `Char.toLower` over the characters (the identifiers in play are
  ASCII, where Python agrees).
* A `while pat in s: s = s.replace(pat, rep)` loop is embedded with fuel
  `s.length`; every firing iteration strictly shortens the string (the
  replacement is shorter than the pattern), so this fuel is sufficient:
  `length_replaceFuel_lt` and `pyReplaceLoop_not_contains` below prove
  the loop reaches its fixed point within it.
* A MongoDB permissions document is an association list
  `List (String × Bool)` (a Python dict: keys unique in practice, first
  binding wins on lookup, insertion order kept on update); an absent
  document is `none`.
* Monetary amounts are embedded as `ℚ` (the Python floats are only
  compared and added/subtracted here, and the properties at stake are
  order/identity properties, not rounding behaviour).
* Python `sorted` on strings is an insertion sort by `String.le`:
  `sorted` is a stable (≤)-sort, and over strings equal keys are
  identical, so every (≤)-sort produces the same output.
-/

/-! ## Consent registry (`services/privacy.py`) -/

/-- A user's permissions document: `none` when the user has no stored
document, otherwise the dict mapping attribute id to allowed. -/
abbrev PermissionsDoc := Option (List (String × Bool))

/-- `check_attribute_permission` (privacy.py:346): the stored boolean for
the attribute, defaulting to `true` when the document or the key is
absent. -/
def check_attribute_permission (doc : PermissionsDoc) (attributeId : String) : Bool :=
  match doc with
  | none => true
  | some permissions =>
    (((permissions.find? (fun p => p.fst == attributeId)).map Prod.snd).getD true)

/-- `filter_allowed_attributes` (privacy.py:357): keep, in order, the
attributes whose permission check succeeds. -/
def filter_allowed_attributes (doc : PermissionsDoc) (attributes : List String) :
    List String :=
  attributes.filter (fun attr => check_attribute_permission doc attr)

/-! ## String primitives used by the normalizer -/

/-- Python `str.strip()` on a character list: drop whitespace from both
ends. -/
def stripChars (s : List Char) : List Char :=
  ((s.dropWhile Char.isWhitespace).reverse.dropWhile Char.isWhitespace).reverse

/-- Python `str.lower()`: lower-case every character. -/
def pyLower (s : String) : String :=
  ⟨s.data.map Char.toLower⟩

/-- Python `pat in s`: `pat` occurs as a contiguous substring of `s`. -/
def containsSub (pat : List Char) : List Char → Bool
  | [] => pat.isEmpty
  | c :: t => pat.isPrefixOf (c :: t) || containsSub pat t

/-- One pass of Python `s.replace(pat, rep)` (nonempty `pat`): scan left
to right, replace each non-overlapping occurrence, never rescanning the
replacement text.  Fuel-driven; `fuel = s.length` is enough because every
step consumes at least one input character. -/
def replaceFuel (pat rep : List Char) : Nat → List Char → List Char
  | 0, s => s
  | n + 1, s =>
    match s with
    | [] => []
    | c :: t =>
      if pat.isPrefixOf s ∧ pat ≠ [] then rep ++ replaceFuel pat rep n (s.drop pat.length)
      else c :: replaceFuel pat rep n t

/-- Python `s.replace(pat, rep)` for nonempty `pat`. -/
def pyReplace (pat rep s : List Char) : List Char :=
  replaceFuel pat rep s.length s

/-- The loop `while pat in s: s = s.replace(pat, rep)`, fuel-driven. -/
def collapseFuel (pat rep : List Char) : Nat → List Char → List Char
  | 0, s => s
  | n + 1, s => if containsSub pat s then collapseFuel pat rep n (pyReplace pat rep s) else s

/-- The loop `while pat in s: s = s.replace(pat, rep)`; fuel `s.length`
suffices when `rep` is shorter than `pat` (proved below). -/
def pyReplaceLoop (pat rep s : List Char) : List Char :=
  collapseFuel pat rep s.length s

/-- The doubled `savings_accounts` prefix pattern. -/
def saPat : List Char := "savings_accounts.savings_accounts".data

/-- Its collapsed replacement. -/
def saRep : List Char := "savings_accounts".data

/-- The doubled `savings_goals` prefix pattern. -/
def sgPat : List Char := "savings_goals.savings_goals".data

/-- Its collapsed replacement. -/
def sgRep : List Char := "savings_goals".data

/-- `clean_attribute` (ai.py:353 and chatbot.py:546): repeatedly collapse
the doubled `savings_accounts` prefix, then the doubled `savings_goals`
prefix, then strip whitespace. -/
def clean_attribute (attr : String) : String :=
  ⟨stripChars (pyReplaceLoop sgPat sgRep (pyReplaceLoop saPat saRep attr.data))⟩

/-! ## Attribute reconciliation engine (`services/ai.py`) -/

/-- The `matched` list of `validate_attributes`: self-reported attributes
also present in the accessed list. -/
def matchedAttrs (ai_reported actually_accessed : List String) : List String :=
  ai_reported.filter (fun attr => actually_accessed.contains attr)

/-- The `unmatched` list of `validate_attributes`: self-reported
attributes not present in the accessed list (possible fabrications). -/
def unmatchedAttrs (ai_reported actually_accessed : List String) : List String :=
  ai_reported.filter (fun attr => !(actually_accessed.contains attr))

/-- The `missing` list of `validate_attributes`: accessed attributes the
model did not report. -/
def missingAttrs (ai_reported actually_accessed : List String) : List String :=
  actually_accessed.filter (fun attr => !(ai_reported.contains attr))

/-- `validate_attributes` (ai.py:300): returns the validated list
(`matched + missing`) and the validation status computed from the
cardinalities. -/
def validate_attributes (ai_reported actually_accessed : List String) :
    List String × String :=
  let matched := matchedAttrs ai_reported actually_accessed
  let unmatched := unmatchedAttrs ai_reported actually_accessed
  let missing := missingAttrs ai_reported actually_accessed
  let status :=
    if matched.length = actually_accessed.length ∧ unmatched.length = 0 then "matched"
    else if matched.length > 0 then "partial"
    else "mismatch"
  (matched ++ missing, status)

/-- The final deduplication loop shared by ai.py:367-374 and
chatbot.py:587-593: clean each attribute, key on its lowercase form,
keep the cleaned first occurrence of every key. -/
def dedupClean (seen : List String) : List String → List String
  | [] => []
  | attr :: rest =>
    let attr_clean := clean_attribute attr
    let attr_lower := pyLower attr_clean
    if seen.contains attr_lower then dedupClean seen rest
    else attr_clean :: dedupClean (attr_lower :: seen) rest

/-- Lexicographic (≤) on character lists by code point, as Python
compares strings. -/
def listStrLe : List Char → List Char → Bool
  | [], _ => true
  | _ :: _, [] => false
  | a :: as, b :: bs =>
    if a.toNat < b.toNat then true
    else if b.toNat < a.toNat then false
    else listStrLe as bs

/-- Python string (≤): lexicographic by code point. -/
def pyStrLe (a b : String) : Bool := listStrLe a.data b.data

/-- Insert into a (≤)-sorted list of strings, before the first larger
element. -/
def insertSorted (a : String) : List String → List String
  | [] => [a]
  | b :: t => if pyStrLe a b then a :: b :: t else b :: insertSorted a t

/-- Python `sorted` over strings: insertion sort by the lexicographic
order.  Python's `sorted` is any stable (≤)-sort; over strings, keys
that compare equal are identical, so every (≤)-sort — this one included
— produces exactly `sorted`'s output. -/
def pySorted (l : List String) : List String :=
  l.foldr insertSorted []

/-- The loan-eligibility reconciliation (ai.py:361-376): clean the raw
lists, cross-validate, deduplicate case-insensitively, sort.  Returns
the `validated_attributes` list persisted into the audit record together
with the validation status. -/
def loanValidated (ai_reported_raw attributes_accessed_raw : List String) :
    List String × String :=
  let ai_reported := (ai_reported_raw.filter (fun a => !(a == ""))).map clean_attribute
  let attributes_accessed := attributes_accessed_raw.map clean_attribute
  let vs := validate_attributes ai_reported attributes_accessed
  (pySorted (dedupClean [] vs.fst), vs.snd)

/-- The user-facing `attributes_used` list of the loan-eligibility
operation (ai.py:379): the consent filter applied, last, to the
validated list. -/
def loanFinalAttributes (doc : PermissionsDoc)
    (ai_reported_raw attributes_accessed_raw : List String) : List String :=
  filter_allowed_attributes doc (loanValidated ai_reported_raw attributes_accessed_raw).fst

/-- The user-facing `attributes_analyzed` list of the profile-explanation
operation (ai.py:543): the consent filter applied to the collected
`attributes_analyzed` list. -/
def profileFinalAttributes (doc : PermissionsDoc) (attributes_analyzed : List String) :
    List String :=
  filter_allowed_attributes doc attributes_analyzed

/-- `list(set(xs))` where only membership matters: deduplicate, keeping
first occurrences as representatives (Python's set iteration order is
arbitrary; every property proved about this list is order-insensitive). -/
def pySetList (l : List String) : List String :=
  l.eraseDups

/-- The user-facing `attributes_used` list of the comprehensive-insights
operation (ai_insights.py:575-576): deduplicate the combined attribute
list, then apply the consent filter last. -/
def insightsFinalAttributes (doc : PermissionsDoc) (all_attributes : List String) :
    List String :=
  filter_allowed_attributes doc (pySetList all_attributes)

/-! ## Chat-query reconciliation (`services/chatbot.py`) -/

/-- The known attribute prefixes accepted by the chat validator
(chatbot.py:558). -/
def knownPrefixes : List String :=
  ["user.", "accounts.", "transactions.", "savings_accounts.", "savings_goals.", "bank."]

/-- First chat validation loop (chatbot.py:563-573): walk the cleaned
self-reported attributes; keep an attribute (keyed case-insensitively)
when it was accessed or merely has a known prefix.  Returns the kept list
and the final `seen` set. -/
def chatCollect (attributes_accessed : List String) (seen : List String) :
    List String → List String × List String
  | [] => ([], seen)
  | attr0 :: rest =>
    let attr := clean_attribute attr0
    let attr_lower := pyLower attr
    if seen.contains attr_lower then chatCollect attributes_accessed seen rest
    else if attributes_accessed.contains attr then
      let r := chatCollect attributes_accessed (attr_lower :: seen) rest
      (attr :: r.fst, r.snd)
    else if knownPrefixes.any (fun p => p.data.isPrefixOf attr.data) then
      let r := chatCollect attributes_accessed (attr_lower :: seen) rest
      (attr :: r.fst, r.snd)
    else chatCollect attributes_accessed seen rest

/-- Second chat validation loop (chatbot.py:576-581): append every
accessed attribute (cleaned) whose lowercase key was not yet seen. -/
def chatPhase2 (seen : List String) : List String → List String
  | [] => []
  | attr0 :: rest =>
    let attr := clean_attribute attr0
    let attr_lower := pyLower attr
    if seen.contains attr_lower then chatPhase2 seen rest
    else attr :: chatPhase2 (attr_lower :: seen) rest

/-- The `validated_attributes` list of the chat-query operation
(chatbot.py:555-581). -/
def chatValidatedAttributes (ai_reported_raw attributes_accessed : List String) :
    List String :=
  let ai_reported := (ai_reported_raw.filter (fun a => !(a == ""))).map clean_attribute
  let r := chatCollect attributes_accessed [] ai_reported
  r.fst ++ chatPhase2 r.snd attributes_accessed

/-- The user-facing `attributes_used` list of the chat-query operation
(chatbot.py:584-595): consent filter, then a final case-insensitive
deduplication pass, then sort. -/
def chatFinalAttributes (doc : PermissionsDoc)
    (ai_reported_raw attributes_accessed : List String) : List String :=
  pySorted (dedupClean []
    (filter_allowed_attributes doc (chatValidatedAttributes ai_reported_raw attributes_accessed)))

/-! ## Permissions update (`services/privacy.py`) -/

/-- The storage state touched by `update_data_access_permissions`:
the permissions document, the two permission-dependent cache entries and
the consent audit records (the `dataTypes` list of each record). -/
structure PrivacyState where
  permissions : PermissionsDoc
  privacyScoreCache : Option String
  insightsCache : Option String
  consentRecords : List (List String)
deriving DecidableEq, Repr

/-- Python `dict[k] = v` on an association list: overwrite the existing
binding in place, else append. -/
def dictSet (m : List (String × Bool)) (k : String) (v : Bool) : List (String × Bool) :=
  if m.any (fun p => p.fst == k) then
    m.map (fun p => if p.fst == k then (k, v) else p)
  else m ++ [(k, v)]

/-- `update_data_access_permissions` (privacy.py:157-232): merge the
request pairs over the stored map, persist it, delete the privacy-score
cache entry, append a consent record listing the allowed attribute ids
of the request.  Returns the new state and the resulting full map. -/
def update_data_access_permissions (st : PrivacyState)
    (request : List (String × Bool)) : PrivacyState × List (String × Bool) :=
  let current_permissions := (st.permissions.getD [])
  let merged := request.foldl (fun m p => dictSet m p.fst p.snd) current_permissions
  ({ permissions := some merged
     privacyScoreCache := none
     insightsCache := st.insightsCache
     consentRecords :=
       st.consentRecords ++ [(request.filter (fun p => p.snd)).map Prod.fst] },
   merged)

/-! ## Savings operations (`services/savings.py`) -/

/-- A savings-account document (the fields read by the operations
below). -/
structure SavingsAccount where
  balance : ℚ
  minimumBalance : ℚ
deriving DecidableEq, Repr

/-- The mirrored main-account document (kept in sync by dual writes). -/
structure MainAccount where
  balance : ℚ
deriving DecidableEq, Repr

/-- The storage state of one savings account and its mirror. -/
structure WithdrawState where
  savings : Option SavingsAccount
  mainAccount : Option MainAccount
deriving DecidableEq, Repr

/-- Outcome of a withdrawal request. -/
inductive WithdrawOutcome where
  | notFound
  | insufficientFunds
  | ok (newBalance : ℚ)
deriving DecidableEq, Repr

/-- `withdraw_from_account` (savings.py:311-357): reject when the
account is missing, reject with the insufficient-funds business error
when `balance - amount < minimumBalance`, otherwise decrement the
savings balance and mirror it into the main account.  Returns the
outcome and the (possibly unchanged) state. -/
def withdraw_from_account (st : WithdrawState) (amount : ℚ) :
    WithdrawOutcome × WithdrawState :=
  match st.savings with
  | none => (WithdrawOutcome.notFound, st)
  | some account =>
    if account.balance - amount < account.minimumBalance then
      (WithdrawOutcome.insufficientFunds, st)
    else
      let new_balance := account.balance - amount
      (WithdrawOutcome.ok new_balance,
       { savings := some { account with balance := new_balance }
         mainAccount := st.mainAccount.map (fun m => { m with balance := new_balance }) })

/-- A savings-goal document (the fields read by `contribute_to_goal`). -/
structure SavingsGoal where
  currentAmount : ℚ
  targetAmount : ℚ
  linked : Bool
deriving DecidableEq, Repr

/-- The storage state of one goal and its (optionally linked) savings
account. -/
structure GoalState where
  goal : Option SavingsGoal
  account : Option SavingsAccount
deriving DecidableEq, Repr

/-- Outcome of a goal contribution. -/
inductive ContributeOutcome where
  | notFound
  | ok (newAmount : ℚ)
deriving DecidableEq, Repr

/-- `contribute_to_goal` (savings.py:553-592): cap the credited amount at
the target, always update the goal; then, when the goal is linked and
the linked account exists with balance at least the contribution, debit
the full contribution from it — otherwise leave the account untouched.
No error is raised in either case. -/
def contribute_to_goal (st : GoalState) (amount : ℚ) :
    ContributeOutcome × GoalState :=
  match st.goal with
  | none => (ContributeOutcome.notFound, st)
  | some goal =>
    let new_amount := min (goal.currentAmount + amount) goal.targetAmount
    let stAfterGoal : GoalState :=
      { st with goal := some { goal with currentAmount := new_amount } }
    let stFinal : GoalState :=
      if goal.linked then
        match st.account with
        | some account =>
          if account.balance ≥ amount then
            { stAfterGoal with
              account := some { account with balance := account.balance - amount } }
          else stAfterGoal
        | none => stAfterGoal
      else stAfterGoal
    (ContributeOutcome.ok new_amount, stFinal)

/-- `calculate_goal_status` (savings.py:99-114).  `daysRemaining` is the
integer `(deadline - datetime.now()).days`; `needed_per_month` is `none`
when it would be Python's `float("inf")` (zero months remaining), and a
comparison against `none` is false exactly as `inf <= x` is false. -/
def calculate_goal_status (current target : ℚ) (daysRemaining : ℤ)
    (monthly_contribution : ℚ) : String :=
  let progress : ℚ := if 0 < target then current / target * 100 else 0
  let months_remaining : ℚ := max 0 ((daysRemaining : ℚ) / 30)
  let needed_per_month : Option ℚ :=
    if 0 < months_remaining then some ((target - current) / months_remaining) else none
  if 100 ≤ progress then "Completed"
  else if (match needed_per_month with
           | none => false
           | some q => q ≤ monthly_contribution * (9 / 10 : ℚ)) then "Ahead"
  else if (match needed_per_month with
           | none => false
           | some q => q ≤ monthly_contribution * (11 / 10 : ℚ)) then "On Track"
  else "Behind"

/-! ## Helper lemmas -/

/-- `List.contains` agrees with membership (strings). -/
theorem contains_iff_mem (l : List String) (a : String) : l.contains a = true ↔ a ∈ l := by
  simp [List.contains]

/-- Counting inside a `filter` when the element satisfies the predicate. -/
theorem count_filter_of_pos (p : String → Bool) (l : List String) (a : String)
    (h : p a = true) : (l.filter p).count a = l.count a := by
  induction l with
  | nil => simp
  | cons b t ih =>
    by_cases hb : p b = true
    · simp [List.filter_cons, hb, List.count_cons, ih]
    · simp only [List.filter_cons, hb]
      simp only [Bool.false_eq_true, if_false, List.count_cons, ih]
      have : ¬ (b = a) := fun he => hb (he ▸ h)
      simp [this]

/-- Membership in the matched list. -/
theorem mem_matchedAttrs {sr acc : List String} {a : String} :
    a ∈ matchedAttrs sr acc ↔ a ∈ sr ∧ a ∈ acc := by
  simp [matchedAttrs, List.mem_filter, contains_iff_mem]

/-- Membership in the missing list. -/
theorem mem_missingAttrs {sr acc : List String} {a : String} :
    a ∈ missingAttrs sr acc ↔ a ∈ acc ∧ a ∉ sr := by
  simp [missingAttrs, List.mem_filter, List.contains]

/-- Membership in the unmatched list. -/
theorem mem_unmatchedAttrs {sr acc : List String} {a : String} :
    a ∈ unmatchedAttrs sr acc ↔ a ∈ sr ∧ a ∉ acc := by
  simp [unmatchedAttrs, List.mem_filter, List.contains]

/-- The cardinality condition of `validate_attributes` coincides with the
perfect-correspondence condition of the spec whenever both input lists
are duplicate-free. -/
theorem length_cond_iff_perfect (sr acc : List String) (h1 : sr.Nodup) (h2 : acc.Nodup) :
    ((matchedAttrs sr acc).length = acc.length ∧ (unmatchedAttrs sr acc).length = 0) ↔
      (unmatchedAttrs sr acc = [] ∧ ∀ a ∈ acc, a ∈ matchedAttrs sr acc) := by
  have hmsub : matchedAttrs sr acc ⊆ acc := by
    intro x hx
    exact (mem_matchedAttrs.mp hx).2
  have hmnd : (matchedAttrs sr acc).Nodup := h1.filter _
  constructor
  · rintro ⟨hlen, hz⟩
    refine ⟨List.length_eq_zero.mp hz, ?_⟩
    have hsp : List.Subperm (matchedAttrs sr acc) acc := hmnd.subperm hmsub
    have hperm : List.Perm (matchedAttrs sr acc) acc :=
      hsp.perm_of_length_le (le_of_eq hlen.symm)
    intro a ha
    exact hperm.mem_iff.mpr ha
  · rintro ⟨hz, hsub⟩
    have hsp1 : List.Subperm (matchedAttrs sr acc) acc := hmnd.subperm hmsub
    have hsp2 : List.Subperm acc (matchedAttrs sr acc) := h2.subperm hsub
    exact ⟨le_antisymm hsp1.length_le hsp2.length_le, by simp [hz]⟩

/-! ## C3: validation-status classification -/

/-- C3 (counterexample): with a duplicated self-reported list the code
reports status `matched` although an accessed attribute is absent from
the matched list, contradicting the claimed characterisation. -/
theorem C3_counterexample :
    (validate_attributes ["user.income", "user.income"]
        ["user.income", "user.bogus"]).snd = "matched"
    ∧ "user.bogus" ∈ ["user.income", "user.bogus"]
    ∧ "user.bogus" ∉ matchedAttrs ["user.income", "user.income"]
        ["user.income", "user.bogus"] := by
  refine ⟨by decide, by decide, by decide⟩

/-- C3 (amended): for duplicate-free input lists, `validation_status` is
`matched` iff `unmatched` is empty and every accessed attribute is
matched, `partial` iff `matched` is nonempty but the perfect
correspondence fails, and `mismatch` iff `matched` is empty and the
perfect correspondence fails; and the three concrete examples of the
spec hold. -/
theorem C3_status_classification (sr acc : List String) (h1 : sr.Nodup) (h2 : acc.Nodup) :
    ((validate_attributes sr acc).snd = "matched" ↔
      (unmatchedAttrs sr acc = [] ∧ ∀ a ∈ acc, a ∈ matchedAttrs sr acc))
    ∧ ((validate_attributes sr acc).snd = "partial" ↔
      (matchedAttrs sr acc ≠ [] ∧
        ¬(unmatchedAttrs sr acc = [] ∧ ∀ a ∈ acc, a ∈ matchedAttrs sr acc)))
    ∧ ((validate_attributes sr acc).snd = "mismatch" ↔
      (matchedAttrs sr acc = [] ∧
        ¬(unmatchedAttrs sr acc = [] ∧ ∀ a ∈ acc, a ∈ matchedAttrs sr acc)))
    ∧ (validate_attributes ["user.income"] ["user.income"]).snd = "matched"
    ∧ (validate_attributes [] ["user.income"]).snd = "mismatch"
    ∧ (validate_attributes ["user.income", "user.bogus"] ["user.income"]).snd = "partial" := by
  have hiff := length_cond_iff_perfect sr acc h1 h2
  have hsnd : (validate_attributes sr acc).snd =
      (if (matchedAttrs sr acc).length = acc.length ∧
          (unmatchedAttrs sr acc).length = 0 then "matched"
       else if (matchedAttrs sr acc).length > 0 then "partial" else "mismatch") := rfl
  by_cases hc : (matchedAttrs sr acc).length = acc.length ∧
      (unmatchedAttrs sr acc).length = 0
  · have hst : (validate_attributes sr acc).snd = "matched" := by rw [hsnd, if_pos hc]
    refine ⟨?_, ?_, ?_, by decide, by decide, by decide⟩
    · simp only [hst, true_iff]
      exact hiff.mp hc
    · simp only [hst]
      constructor
      · intro h; exact absurd h (by decide)
      · rintro ⟨-, hnp⟩; exact absurd (hiff.mp hc) hnp
    · simp only [hst]
      constructor
      · intro h; exact absurd h (by decide)
      · rintro ⟨-, hnp⟩; exact absurd (hiff.mp hc) hnp
  · have hnp : ¬(unmatchedAttrs sr acc = [] ∧ ∀ a ∈ acc, a ∈ matchedAttrs sr acc) :=
      fun hp => hc (hiff.mpr hp)
    by_cases hp : (matchedAttrs sr acc).length > 0
    · have hst : (validate_attributes sr acc).snd = "partial" := by
        rw [hsnd, if_neg hc, if_pos hp]
      have hne : matchedAttrs sr acc ≠ [] := List.length_pos.mp hp
      refine ⟨?_, ?_, ?_, by decide, by decide, by decide⟩
      · simp only [hst]
        constructor
        · intro h; exact absurd h (by decide)
        · intro hperf; exact absurd hperf hnp
      · simp only [hst, true_iff]
        exact ⟨hne, hnp⟩
      · simp only [hst]
        constructor
        · intro h; exact absurd h (by decide)
        · rintro ⟨hnil, -⟩; exact absurd hnil hne
    · have hnil : matchedAttrs sr acc = [] :=
        List.length_eq_zero.mp (Nat.eq_zero_of_not_pos hp)
      have hst : (validate_attributes sr acc).snd = "mismatch" := by
        rw [hsnd, if_neg hc, if_neg hp]
      refine ⟨?_, ?_, ?_, by decide, by decide, by decide⟩
      · simp only [hst]
        constructor
        · intro h; exact absurd h (by decide)
        · intro hperf; exact absurd hperf hnp
      · simp only [hst]
        constructor
        · intro h; exact absurd h (by decide)
        · rintro ⟨hne, -⟩; exact absurd hnil hne
      · simp only [hst, true_iff]
        exact ⟨hnil, hnp⟩

/-- C3 (witness): the amended classification applied to the spec's own
first example, hypotheses discharged at duplicate-free lists. -/
theorem C3_status_classification_witness :
    (validate_attributes ["user.income"] ["user.income"]).snd = "matched" :=
  (C3_status_classification ["user.income"] ["user.income"]
    (by decide) (by decide)).2.2.2.1

/-! ## C4: `filter_allowed` characterisation -/

/-- C4 (counterexample): `filter_allowed_attributes` does not remove
duplicates — an input holding the same identifier twice yields it twice
in the output, refuting the "at most once" part of the claim. -/
theorem C4_counterexample :
    (filter_allowed_attributes none ["user.income", "user.income"]).count "user.income" = 2 := by
  decide

/-- C4 (amended): `filter_allowed` returns exactly the subset of its
input for which `is_allowed` is true, as an order-preserving sublist;
duplicates are NOT removed — every allowed occurrence is kept (the count
of an allowed attribute is preserved; of a denied one it is zero). -/
theorem C4_filter_allowed_characterization (doc : PermissionsDoc)
    (attrs : List String) (a : String) :
    (a ∈ filter_allowed_attributes doc attrs ↔
        a ∈ attrs ∧ check_attribute_permission doc a = true)
    ∧ (filter_allowed_attributes doc attrs).Sublist attrs
    ∧ (filter_allowed_attributes doc attrs).count a =
        (if check_attribute_permission doc a then attrs.count a else 0) := by
  refine ⟨by simp [filter_allowed_attributes, List.mem_filter], List.filter_sublist attrs, ?_⟩
  by_cases h : check_attribute_permission doc a = true
  · rw [if_pos h]
    exact count_filter_of_pos _ attrs a h
  · rw [if_neg h]
    refine List.count_eq_zero.mpr ?_
    intro hmem
    exact h ((List.mem_filter.mp hmem).2)

/-! ## C6: permissions update side effects -/

theorem find?_map_overwrite_self (m : List (String × Bool)) (k : String) (v : Bool) :
    (m.map (fun p => if p.fst == k then (k, v) else p)).find? (fun p => p.fst == k)
      = (m.find? (fun p => p.fst == k)).map (fun _ => (k, v)) := by
  induction m with
  | nil => simp
  | cons b t ih =>
    by_cases hb : b.fst = k
    · have hbeq : (b.fst == k) = true := by simpa using hb
      rw [List.map_cons, if_pos hbeq,
        List.find?_cons_of_pos (p := fun x : String × Bool => x.fst == k) _ (by simp),
        List.find?_cons_of_pos (p := fun x : String × Bool => x.fst == k) _ hbeq]
      rfl
    · have h1 : ¬ ((b.fst == k) = true) := by simpa using hb
      rw [List.map_cons, if_neg h1,
        List.find?_cons_of_neg (p := fun x : String × Bool => x.fst == k) _ h1,
        List.find?_cons_of_neg (p := fun x : String × Bool => x.fst == k) _ h1]
      exact ih

theorem find?_map_overwrite_ne (m : List (String × Bool)) (k : String) (v : Bool)
    (a : String) (hne : a ≠ k) :
    (m.map (fun p => if p.fst == k then (k, v) else p)).find? (fun p => p.fst == a)
      = m.find? (fun p => p.fst == a) := by
  have hka : ¬ ((((k, v) : String × Bool).fst == a) = true) := by
    simp only [beq_iff_eq]
    exact Ne.symm hne
  induction m with
  | nil => simp
  | cons b t ih =>
    by_cases hb : b.fst = k
    · have hbeq : (b.fst == k) = true := by simpa using hb
      have h2 : ¬ ((b.fst == a) = true) := by
        simp only [beq_iff_eq, hb]
        exact Ne.symm hne
      rw [List.map_cons, if_pos hbeq,
        List.find?_cons_of_neg (p := fun x : String × Bool => x.fst == a) _ hka,
        List.find?_cons_of_neg (p := fun x : String × Bool => x.fst == a) _ h2]
      exact ih
    · have hbne : ¬ ((b.fst == k) = true) := by simpa using hb
      by_cases hba : b.fst = a
      · have h1 : (b.fst == a) = true := by simpa using hba
        rw [List.map_cons, if_neg hbne,
          List.find?_cons_of_pos (p := fun x : String × Bool => x.fst == a) _ h1,
          List.find?_cons_of_pos (p := fun x : String × Bool => x.fst == a) _ h1]
      · have h1 : ¬ ((b.fst == a) = true) := by simpa using hba
        rw [List.map_cons, if_neg hbne,
          List.find?_cons_of_neg (p := fun x : String × Bool => x.fst == a) _ h1,
          List.find?_cons_of_neg (p := fun x : String × Bool => x.fst == a) _ h1]
        exact ih

theorem find?_append_of_none (p : String × Bool → Bool) (l₁ l₂ : List (String × Bool))
    (h : l₁.find? p = none) : (l₁ ++ l₂).find? p = l₂.find? p := by
  induction l₁ with
  | nil => simp
  | cons b t ih =>
    cases hp : p b with
    | true => rw [List.find?_cons_of_pos _ hp] at h; simp at h
    | false =>
      have hnp : ¬ (p b = true) := by simp [hp]
      rw [List.find?_cons_of_neg _ hnp] at h
      rw [List.cons_append, List.find?_cons_of_neg _ hnp]
      exact ih h

theorem find?_append_of_some (p : String × Bool → Bool) (l m : List (String × Bool))
    (w : String × Bool) (h : l.find? p = some w) : (l ++ m).find? p = some w := by
  induction l with
  | nil => simp at h
  | cons b t ih =>
    cases hp : p b with
    | true =>
      rw [List.find?_cons_of_pos _ hp] at h
      rw [List.cons_append, List.find?_cons_of_pos _ hp]
      exact h
    | false =>
      have hnp : ¬ (p b = true) := by simp [hp]
      rw [List.find?_cons_of_neg _ hnp] at h
      rw [List.cons_append, List.find?_cons_of_neg _ hnp]
      exact ih h

theorem dictSet_find?_self (m : List (String × Bool)) (k : String) (v : Bool) :
    (dictSet m k v).find? (fun p => p.fst == k) = some (k, v) := by
  unfold dictSet
  by_cases h : m.any (fun p => p.fst == k) = true
  · rw [if_pos h, find?_map_overwrite_self]
    have hs : (m.find? (fun p => p.fst == k)).isSome = true := by
      rw [List.find?_isSome]
      simpa [List.any_eq_true] using h
    rcases Option.isSome_iff_exists.mp hs with ⟨w, hw⟩
    rw [hw]
    rfl
  · have hnone : m.find? (fun p => p.fst == k) = none := by
      rw [List.find?_eq_none]
      intro x hx hxk
      apply h
      rw [List.any_eq_true]
      exact ⟨x, hx, hxk⟩
    rw [if_neg h, find?_append_of_none _ _ _ hnone,
      List.find?_cons_of_pos (p := fun x : String × Bool => x.fst == k) _ (by simp)]

theorem dictSet_find?_ne (m : List (String × Bool)) (k : String) (v : Bool) (a : String)
    (hne : a ≠ k) :
    (dictSet m k v).find? (fun p => p.fst == a) = m.find? (fun p => p.fst == a) := by
  unfold dictSet
  by_cases h : m.any (fun p => p.fst == k) = true
  · rw [if_pos h, find?_map_overwrite_ne m k v a hne]
  · rw [if_neg h]
    cases hm : m.find? (fun p => p.fst == a) with
    | some w =>
      rw [find?_append_of_some _ _ _ _ hm]
    | none =>
      rw [find?_append_of_none _ _ _ hm,
        List.find?_cons_of_neg (p := fun x : String × Bool => x.fst == a) _ (by
          simp only [beq_iff_eq]
          exact Ne.symm hne),
        List.find?_nil]

theorem foldl_dictSet_find? (request : List (String × Bool)) (m : List (String × Bool))
    (a : String) :
    ((request.foldl (fun acc p => dictSet acc p.fst p.snd) m).find? (fun p => p.fst == a))
      = ((request.reverse.find? (fun p => p.fst == a)).orElse
          (fun _ => m.find? (fun p => p.fst == a))) := by
  induction request generalizing m with
  | nil => simp [Option.orElse]
  | cons q rest ih =>
    rw [List.foldl_cons, ih (dictSet m q.fst q.snd), List.reverse_cons]
    cases hr : rest.reverse.find? (fun p => p.fst == a) with
    | some w =>
      rw [find?_append_of_some _ _ _ _ hr]
      simp [Option.orElse]
    | none =>
      rw [find?_append_of_none _ _ _ hr]
      by_cases hq : q.fst = a
      · have h1 : (q.fst == a) = true := by simpa using hq
        rw [List.find?_cons_of_pos (p := fun x : String × Bool => x.fst == a) _ h1]
        subst hq
        have := dictSet_find?_self m q.fst q.snd
        simp [Option.orElse, this]
      · have h1 : ¬ ((q.fst == a) = true) := by simpa using hq
        rw [List.find?_cons_of_neg (p := fun x : String × Bool => x.fst == a) _ h1,
          List.find?_nil]
        have := dictSet_find?_ne m q.fst q.snd a (fun he => hq he.symm)
        simp [Option.orElse, this]

/-- C6 (counterexample): updating permissions leaves the
comprehensive-insights cache entry in place — the claim that both
permission-dependent cache entries are deleted is false. -/
theorem C6_counterexample :
    ((update_data_access_permissions
        { permissions := none, privacyScoreCache := some "score"
          insightsCache := some "insights", consentRecords := [] }
        [("user.income", false)]).fst).insightsCache ≠ none := by
  decide

/-- C6 (amended): a successful permissions update merges the request
pairs over the stored map (last occurrence of a key wins, falling back
to the previously stored value, itself defaulting to allow) and deletes
the privacy-score cache entry; the comprehensive-insights cache entry is
left unchanged. -/
theorem C6_update_effects (st : PrivacyState) (request : List (String × Bool)) :
    ((update_data_access_permissions st request).fst.privacyScoreCache = none)
    ∧ ((update_data_access_permissions st request).fst.insightsCache = st.insightsCache)
    ∧ ((update_data_access_permissions st request).fst.permissions =
        some (update_data_access_permissions st request).snd)
    ∧ (∀ a : String,
        check_attribute_permission
            (update_data_access_permissions st request).fst.permissions a
          = (((request.reverse.find? (fun p => p.fst == a)).map Prod.snd).getD
              (check_attribute_permission st.permissions a))) := by
  refine ⟨rfl, rfl, rfl, ?_⟩
  intro a
  have hsome : ∀ M : List (String × Bool), check_attribute_permission (some M) a
      = ((M.find? (fun p => p.fst == a)).map Prod.snd).getD true := fun M => rfl
  rw [show (update_data_access_permissions st request).fst.permissions
      = some (request.foldl (fun m p => dictSet m p.fst p.snd) (st.permissions.getD []))
      from rfl]
  rw [hsome, foldl_dictSet_find?]
  cases hr : request.reverse.find? (fun p => p.fst == a) with
  | some w => simp [Option.orElse]
  | none =>
    simp only [Option.orElse, Option.map_none, Option.getD_none]
    cases hp : st.permissions with
    | some m =>
      rw [show (some m).getD [] = m from rfl, hsome]
      simp
    | none =>
      rw [show (Option.getD (none : PermissionsDoc) []) = ([] : List (String × Bool)) from rfl]
      rw [show check_attribute_permission none a = true from rfl]
      simp

/-! ## C7: withdrawal below the minimum-balance floor -/

/-- C7: a withdrawal whose result would fall below the minimum balance
fails with the insufficient-funds business error and leaves the stored
savings balance and the mirrored main-account balance unchanged. -/
theorem C7_withdraw_insufficient (st : WithdrawState) (account : SavingsAccount)
    (amount : ℚ) (hacc : st.savings = some account)
    (hins : account.balance - amount < account.minimumBalance) :
    withdraw_from_account st amount = (WithdrawOutcome.insufficientFunds, st) := by
  unfold withdraw_from_account
  simp only [hacc]
  rw [if_pos hins]

/-- C7 (witness): withdrawing 600 from balance 500 with minimum balance
0 is rejected and mutates nothing. -/
theorem C7_withdraw_insufficient_witness :
    withdraw_from_account
      { savings := some { balance := 500, minimumBalance := 0 }
        mainAccount := some { balance := 500 } } 600
    = (WithdrawOutcome.insufficientFunds,
       { savings := some { balance := 500, minimumBalance := 0 }
         mainAccount := some { balance := 500 } }) :=
  C7_withdraw_insufficient _ _ _ rfl (by norm_num)

/-! ## C8: goal-status classification -/

/-- Closed form of `calculate_goal_status`: the deadline-passed case
(zero or negative days) forces `Behind` unless already complete, and
with a positive number of days the bands compare the required monthly
rate against the declared contribution. -/
theorem calculate_goal_status_eq (current target : ℚ) (d : ℤ) (mc : ℚ) :
    calculate_goal_status current target d mc =
      (if 100 ≤ (if 0 < target then current / target * 100 else 0) then "Completed"
       else if 0 < d ∧ (target - current) / ((d : ℚ) / 30) ≤ mc * (9 / 10) then "Ahead"
       else if 0 < d ∧ (target - current) / ((d : ℚ) / 30) ≤ mc * (11 / 10) then "On Track"
       else "Behind") := by
  by_cases hd : 0 < d
  · have hcast : (0 : ℚ) < (d : ℚ) := by exact_mod_cast hd
    have hpos : 0 < (d : ℚ) / 30 := by positivity
    have hmax : max 0 ((d : ℚ) / 30) = (d : ℚ) / 30 := max_eq_right (le_of_lt hpos)
    simp only [calculate_goal_status, hmax, if_pos hpos]
    simp [hd]
  · have hle : (d : ℚ) ≤ 0 := by exact_mod_cast (le_of_not_lt hd)
    have hdiv : (d : ℚ) / 30 ≤ 0 := div_nonpos_of_nonpos_of_nonneg hle (by norm_num)
    have hmax : max 0 ((d : ℚ) / 30) = 0 := max_eq_left hdiv
    simp only [calculate_goal_status, hmax, lt_irrefl 0, if_neg (lt_irrefl 0)]
    simp [hd]

/-- C8: goal status is `Completed` iff progress reaches 100% (regardless
of deadline); with the deadline passed (zero or negative days) the
status is `Behind` unless complete; with a positive number of days the
`Ahead` / `On Track` / `Behind` bands compare the required-per-month
rate against 0.9x and 1.1x the declared contribution; and the spec's
boundary examples hold. -/
theorem C8_goal_status (current target : ℚ) (d : ℤ) (mc : ℚ) :
    (calculate_goal_status current target d mc = "Completed" ↔
      100 ≤ (if 0 < target then current / target * 100 else 0))
    ∧ (d ≤ 0 → ¬(100 ≤ (if 0 < target then current / target * 100 else 0)) →
        calculate_goal_status current target d mc = "Behind")
    ∧ (0 < d → ¬(100 ≤ (if 0 < target then current / target * 100 else 0)) →
        ((calculate_goal_status current target d mc = "Ahead" ↔
            (target - current) / ((d : ℚ) / 30) ≤ mc * (9 / 10))
          ∧ (calculate_goal_status current target d mc = "On Track" ↔
              (¬((target - current) / ((d : ℚ) / 30) ≤ mc * (9 / 10))
                ∧ (target - current) / ((d : ℚ) / 30) ≤ mc * (11 / 10)))
          ∧ (calculate_goal_status current target d mc = "Behind" ↔
              (¬((target - current) / ((d : ℚ) / 30) ≤ mc * (9 / 10))
                ∧ ¬((target - current) / ((d : ℚ) / 30) ≤ mc * (11 / 10))))))
    ∧ (∀ e : ℤ, calculate_goal_status 1000 1000 e mc = "Completed")
    ∧ calculate_goal_status 0 1000 30 1000 = "On Track"
    ∧ calculate_goal_status 0 1000 30 500 = "Behind" := by
  refine ⟨?_, ?_, ?_, ?_, ?_, ?_⟩
  · rw [calculate_goal_status_eq]
    by_cases h1 : 100 ≤ (if 0 < target then current / target * 100 else 0)
    · simp [h1]
    · rw [if_neg h1]
      constructor
      · intro hcontra
        split_ifs at hcontra <;> exact absurd hcontra (by decide)
      · intro h
        exact absurd h h1
  · intro hd hnc
    rw [calculate_goal_status_eq, if_neg hnc]
    have hnd : ¬ (0 < d) := not_lt.mpr hd
    rw [if_neg (fun h => hnd h.1), if_neg (fun h => hnd h.1)]
  · intro hd hnc
    rw [calculate_goal_status_eq, if_neg hnc]
    simp only [hd, true_and]
    by_cases h9 : (target - current) / ((d : ℚ) / 30) ≤ mc * (9 / 10) <;>
      by_cases h11 : (target - current) / ((d : ℚ) / 30) ≤ mc * (11 / 10) <;>
      simp [h9, h11]
  · intro e
    rw [calculate_goal_status_eq]
    norm_num
  · rw [calculate_goal_status_eq]
    norm_num
  · rw [calculate_goal_status_eq]
    norm_num

/-- C8 (witness): the theorem applied with a passed deadline (-5 days)
and mid-way progress yields `Behind`. -/
theorem C8_goal_status_witness :
    calculate_goal_status 500 1000 (-5) 100 = "Behind" :=
  (C8_goal_status 500 1000 (-5) 100).2.1 (by norm_num) (by norm_num)

/-! ## C9 and C10: goal contributions -/

/-- C9: a successful contribution stores
`min(currentAmount + amount, targetAmount)` in the goal — never more
than the target — while any overshoot is silently absorbed: the linked
account, when debited at all, is debited by the full contribution
amount, never by a surplus-reduced one. -/
theorem C9_contribution_cap (st : GoalState) (goal : SavingsGoal) (amount : ℚ)
    (hg : st.goal = some goal) :
    ((contribute_to_goal st amount).snd.goal =
        some { goal with currentAmount := min (goal.currentAmount + amount) goal.targetAmount })
    ∧ (∀ g', (contribute_to_goal st amount).snd.goal = some g' →
        g'.currentAmount ≤ goal.targetAmount)
    ∧ ((contribute_to_goal st amount).fst =
        ContributeOutcome.ok (min (goal.currentAmount + amount) goal.targetAmount))
    ∧ (∀ acc acc', st.account = some acc →
        (contribute_to_goal st amount).snd.account = some acc' →
        (acc'.balance = acc.balance - amount ∨ acc'.balance = acc.balance)) := by
  have hgoal : (contribute_to_goal st amount).snd.goal =
      some { goal with currentAmount := min (goal.currentAmount + amount) goal.targetAmount } := by
    by_cases hl : goal.linked = true
    · cases hacc : st.account with
      | none => simp [contribute_to_goal, hg, hl, hacc]
      | some acc =>
        by_cases hbal : acc.balance ≥ amount
        · simp [contribute_to_goal, hg, hl, hacc, hbal]
        · simp [contribute_to_goal, hg, hl, hacc, hbal]
    · simp [contribute_to_goal, hg, hl]
  refine ⟨hgoal, ?_, by simp [contribute_to_goal, hg], ?_⟩
  · intro g' hgo
    rw [hgoal] at hgo
    have hg' := Option.some.inj hgo
    rw [← hg']
    exact min_le_right _ _
  · intro acc acc' hacc hacc'
    by_cases hl : goal.linked = true
    · by_cases hbal : acc.balance ≥ amount
      · left
        have : (contribute_to_goal st amount).snd.account =
            some { acc with balance := acc.balance - amount } := by
          simp [contribute_to_goal, hg, hl, hacc, hbal]
        rw [this] at hacc'
        rw [← Option.some.inj hacc']
      · right
        have : (contribute_to_goal st amount).snd.account = some acc := by
          simp [contribute_to_goal, hg, hl, hacc, hbal]
        rw [this] at hacc'
        rw [← Option.some.inj hacc']
    · right
      have : (contribute_to_goal st amount).snd.account = some acc := by
        simp [contribute_to_goal, hg, hl, hacc]
      rw [this] at hacc'
      rw [← Option.some.inj hacc']

/-- C9 (witness): contributing 80 to a goal at 50/100 stores the capped
amount 100. -/
theorem C9_contribution_cap_witness :
    (contribute_to_goal
      { goal := some { currentAmount := 50, targetAmount := 100, linked := false }
        account := none } 80).fst = ContributeOutcome.ok 100 := by
  have h := (C9_contribution_cap
    { goal := some { currentAmount := 50, targetAmount := 100, linked := false }
      account := none }
    { currentAmount := 50, targetAmount := 100, linked := false } 80 rfl).2.2.1
  rw [h]
  norm_num [min_def]

/-- C10: with a linked goal and an existing linked account, the goal is
credited (capped) unconditionally and no error is raised; the account is
debited by the contribution amount exactly when its balance covers it,
and is otherwise left unchanged. -/
theorem C10_linked_contribution (st : GoalState) (goal : SavingsGoal)
    (account : SavingsAccount) (amount : ℚ) (hg : st.goal = some goal)
    (hl : goal.linked = true) (ha : st.account = some account) :
    ((contribute_to_goal st amount).fst =
        ContributeOutcome.ok (min (goal.currentAmount + amount) goal.targetAmount))
    ∧ ((contribute_to_goal st amount).snd.goal =
        some { goal with currentAmount := min (goal.currentAmount + amount) goal.targetAmount })
    ∧ ((contribute_to_goal st amount).snd.account =
        some (if amount ≤ account.balance
              then { account with balance := account.balance - amount }
              else account)) := by
  refine ⟨by simp [contribute_to_goal, hg], ?_, ?_⟩
  · by_cases hbal : account.balance ≥ amount
    · simp [contribute_to_goal, hg, hl, ha, hbal]
    · simp [contribute_to_goal, hg, hl, ha, hbal]
  · by_cases hbal : account.balance ≥ amount
    · have hif : amount ≤ account.balance := ge_iff_le.mp hbal
      rw [if_pos hif]
      simp [contribute_to_goal, hg, hl, ha, hbal]
    · have hif : ¬ (amount ≤ account.balance) := fun h => hbal (ge_iff_le.mpr h)
      rw [if_neg hif]
      simp [contribute_to_goal, hg, hl, ha, hbal]

/-- C10 (witness): contributing 80 against a linked account holding only
50 still credits the goal in full while the account balance stays 50. -/
theorem C10_linked_contribution_witness :
    (contribute_to_goal
      { goal := some { currentAmount := 0, targetAmount := 1000, linked := true }
        account := some { balance := 50, minimumBalance := 0 } } 80).snd.account
      = some { balance := 50, minimumBalance := 0 } := by
  have h := (C10_linked_contribution
    { goal := some { currentAmount := 0, targetAmount := 1000, linked := true }
      account := some { balance := 50, minimumBalance := 0 } }
    { currentAmount := 0, targetAmount := 1000, linked := true }
    { balance := 50, minimumBalance := 0 } 80 rfl rfl rfl).2.2
  rw [h, if_neg (by norm_num)]

/-! ## String-rewriting lemmas for the normalizer -/


theorem containsSub_iff_occurs (pat s : List Char) :
    containsSub pat s = true ↔ pat <:+: s := by
  induction s with
  | nil =>
    simp [containsSub, List.infix_nil, List.isEmpty_iff]
  | cons c t ih =>
    rw [containsSub, Bool.or_eq_true, List.isPrefixOf_iff_prefix, ih,
      List.infix_cons_iff]

theorem prefix_append_cases {p x y : List Char} (h : p <+: x ++ y) :
    p <+: x ∨ ∃ b, p = x ++ b ∧ b <+: y := by
  induction x generalizing p with
  | nil =>
    right
    exact ⟨p, rfl, by simpa using h⟩
  | cons c x' ih =>
    cases p with
    | nil => left; exact List.nil_prefix
    | cons d p' =>
      rw [List.cons_append, List.cons_prefix_cons] at h
      obtain ⟨rfl, h'⟩ := h
      rcases ih h' with h1 | ⟨b, rfl, hb⟩
      · left
        exact List.cons_prefix_cons.mpr ⟨rfl, h1⟩
      · right
        exact ⟨b, rfl, hb⟩

theorem infix_append_cases {q x y : List Char} (h : q <:+: x ++ y) :
    q <:+: x ∨ q <:+: y ∨
      ∃ a b, q = a ++ b ∧ a ≠ [] ∧ b ≠ [] ∧ a <:+ x ∧ b <+: y := by
  induction x generalizing q with
  | nil =>
    right; left; simpa using h
  | cons c x' ih =>
    rw [List.cons_append, List.infix_cons_iff] at h
    rcases h with h | h
    · -- q <+: c :: (x' ++ y)
      cases q with
      | nil => left; exact List.nil_infix
      | cons d q' =>
        rw [List.cons_prefix_cons] at h
        obtain ⟨hdc, h'⟩ := h
        rcases prefix_append_cases h' with h1 | ⟨b, hq', hb⟩
        · left
          exact ((List.cons_prefix_cons.mpr ⟨hdc, h1⟩) : _ <+: c :: x').isInfix
        · by_cases hbnil : b = []
          · left
            have hq : d :: q' = c :: x' := by
              rw [hdc, hq', hbnil, List.append_nil]
            rw [hq]
          · right; right
            refine ⟨c :: x', b, ?_, by simp, hbnil, List.suffix_refl (c :: x'), hb⟩
            rw [List.cons_append, hdc, hq']
    · rcases ih h with h1 | h1 | ⟨a, b, rfl, ha, hb, hsuf, hpre⟩
      · left
        exact h1.trans (List.suffix_cons c x').isInfix
      · right; left; exact h1
      · right; right
        exact ⟨a, b, rfl, ha, hb, hsuf.trans (List.suffix_cons c x'), hpre⟩

theorem isPrefixOf_false_of_head_ne (pat : List Char) (c : Char) (t : List Char)
    (h : Char) (hh : pat.head? = some h) (hne : h ≠ c) :
    pat.isPrefixOf (c :: t) = false := by
  cases pat with
  | nil => simp at hh
  | cons p0 pr =>
    have hp0 : p0 = h := by simpa using hh
    subst hp0
    simp [List.isPrefixOf, hne]

theorem replaceFuel_of_not_contains (pat rep : List Char) (n : Nat) (s : List Char)
    (h : containsSub pat s = false) : replaceFuel pat rep n s = s := by
  induction n generalizing s with
  | zero => rfl
  | succ n ih =>
    cases s with
    | nil => rfl
    | cons c t =>
      rw [containsSub, Bool.or_eq_false_iff] at h
      rw [replaceFuel, if_neg (fun hg => by rw [h.1] at hg; exact absurd hg.1 (by simp)),
        ih t h.2]

theorem length_replaceFuel_le (pat rep : List Char) (hlen : rep.length ≤ pat.length)
    (n : Nat) (s : List Char) : (replaceFuel pat rep n s).length ≤ s.length := by
  induction n generalizing s with
  | zero => exact le_refl _
  | succ n ih =>
    cases s with
    | nil => exact le_refl _
    | cons c t =>
      rw [replaceFuel]
      by_cases hg : pat.isPrefixOf (c :: t) = true ∧ pat ≠ []
      · rw [if_pos hg]
        have hple : pat.length ≤ (c :: t).length :=
          (List.isPrefixOf_iff_prefix.mp hg.1).length_le
        have hrec := ih ((c :: t).drop pat.length)
        rw [List.length_append, List.length_drop] at *
        omega
      · rw [if_neg hg]
        have := ih t
        simp only [List.length_cons]
        omega

theorem length_replaceFuel_lt (pat rep : List Char) (hlen : rep.length < pat.length)
    (n : Nat) (s : List Char) (hfuel : s.length ≤ n)
    (h : containsSub pat s = true) : (replaceFuel pat rep n s).length < s.length := by
  induction n generalizing s with
  | zero =>
    exfalso
    have : s = [] := List.length_eq_zero.mp (Nat.le_zero.mp hfuel)
    subst this
    rw [containsSub] at h
    have : pat = [] := by simpa [List.isEmpty_iff] using h
    rw [this] at hlen
    simp at hlen
  | succ n ih =>
    cases s with
    | nil =>
      exfalso
      rw [containsSub] at h
      have : pat = [] := by simpa [List.isEmpty_iff] using h
      rw [this] at hlen
      simp at hlen
    | cons c t =>
      rw [replaceFuel]
      by_cases hg : pat.isPrefixOf (c :: t) = true ∧ pat ≠ []
      · rw [if_pos hg]
        have hple : pat.length ≤ (c :: t).length :=
          (List.isPrefixOf_iff_prefix.mp hg.1).length_le
        have hrec := length_replaceFuel_le pat rep (le_of_lt hlen) n
          ((c :: t).drop pat.length)
        rw [List.length_append, List.length_drop] at *
        omega
      · rw [if_neg hg]
        have hpre : pat.isPrefixOf (c :: t) = false := by
          by_cases hp : pat = []
          · exfalso
            rw [hp] at hlen
            simp at hlen
          · cases hq : pat.isPrefixOf (c :: t) with
            | false => rfl
            | true => exact absurd ⟨hq, hp⟩ hg
        have hct : containsSub pat t = true := by
          rw [containsSub, hpre, Bool.false_or] at h
          exact h
        have hfuel' : t.length ≤ n := by
          simp only [List.length_cons] at hfuel
          omega
        have := ih t hfuel' hct
        simp only [List.length_cons]
        omega

theorem collapseFuel_not_contains (pat rep : List Char) (hlen : rep.length < pat.length)
    (n : Nat) (s : List Char) (hfuel : s.length ≤ n) :
    containsSub pat (collapseFuel pat rep n s) = false := by
  induction n generalizing s with
  | zero =>
    have : s = [] := List.length_eq_zero.mp (Nat.le_zero.mp hfuel)
    subst this
    rw [collapseFuel, containsSub]
    have hp : pat ≠ [] := by
      intro hp
      rw [hp] at hlen
      simp at hlen
    simpa [List.isEmpty_iff] using hp
  | succ n ih =>
    rw [collapseFuel]
    by_cases h : containsSub pat s = true
    · rw [if_pos h]
      have hlt : (pyReplace pat rep s).length < s.length :=
        length_replaceFuel_lt pat rep hlen s.length s (le_refl _) h
      exact ih (pyReplace pat rep s) (by omega)
    · rw [if_neg h]
      simpa using h

theorem pyReplaceLoop_of_not_contains (pat rep : List Char) (s : List Char)
    (h : containsSub pat s = false) : pyReplaceLoop pat rep s = s := by
  unfold pyReplaceLoop
  cases hn : s.length with
  | zero => rfl
  | succ n => rw [collapseFuel, if_neg (by simp [h])]

theorem pyReplaceLoop_not_contains (pat rep : List Char) (hlen : rep.length < pat.length)
    (s : List Char) : containsSub pat (pyReplaceLoop pat rep s) = false :=
  collapseFuel_not_contains pat rep hlen s.length s (le_refl _)

theorem collapseFuel_of_not_contains (pat rep : List Char) (n : Nat) (s : List Char)
    (h : containsSub pat s = false) : collapseFuel pat rep n s = s := by
  cases n with
  | zero => rfl
  | succ n => rw [collapseFuel, if_neg (by simp [h])]

theorem replaceFuel_prefix_step (pat rep rest : List Char) (n : Nat) (hne : pat ≠ []) :
    replaceFuel pat rep (n + 1) (pat ++ rest) = rep ++ replaceFuel pat rep n rest := by
  cases hp : pat with
  | nil => exact absurd hp hne
  | cons c p' =>
    rw [List.cons_append, replaceFuel]
    rw [if_pos ⟨by
      rw [← List.cons_append]
      exact List.isPrefixOf_iff_prefix.mpr (List.prefix_append _ rest), by simp⟩]
    congr 1
    rw [← List.cons_append, List.drop_left]

theorem not_infix_append_generic (P X fd : List Char)
    (h1 : containsSub P X = false)
    (h2 : ¬ P <:+: fd)
    (henum : ∀ c' ∈ X.tails, c'.isPrefixOf P = true → c' = []) :
    ¬ P <:+: (X ++ fd) := by
  intro h
  rcases infix_append_cases h with hc | hc | ⟨a, b, heq, hane, hbne, hsuf, hpre⟩
  · rw [← containsSub_iff_occurs, h1] at hc
    exact absurd hc (by simp)
  · exact h2 hc
  · exact hane (henum a ((List.mem_tails _ _).mpr hsuf)
      (List.isPrefixOf_iff_prefix.mpr ⟨b, heq.symm⟩))

theorem not_infix_collapsed (A fd : List Char) (hAlen : 0 < A.length)
    (h2 : ¬ A <:+: fd)
    (henum : ∀ c' ∈ (A ++ ['.']).tails,
      c'.isPrefixOf (A ++ '.' :: A) = true → (c' = [] ∨ c' = A ++ ['.'])) :
    ¬ (A ++ '.' :: A) <:+: ((A ++ ['.']) ++ fd) := by
  intro h
  rcases infix_append_cases h with hc | hc | ⟨a, b, heq, hane, hbne, hsuf, hpre⟩
  · have hlen := hc.length_le
    rw [List.length_append, List.length_append, List.length_cons, List.length_cons,
      List.length_nil] at hlen
    omega
  · exact h2 (((List.prefix_append A ('.' :: A)).isInfix).trans hc)
  · rcases henum a ((List.mem_tails _ _).mpr hsuf)
        (List.isPrefixOf_iff_prefix.mpr ⟨b, heq.symm⟩) with h3 | h3
    · exact hane h3
    · have hb : b = A := by
        have h4 : (A ++ ['.']) ++ b = (A ++ ['.']) ++ A := by
          rw [← h3, ← heq, h3, List.append_cons]
        exact List.append_cancel_left h4
      exact h2 (hb ▸ hpre).isInfix

theorem contains_false_of_no_occurrence (P s : List Char) (h : ¬ P <:+: s) :
    containsSub P s = false := by
  cases hcc : containsSub P s with
  | false => rfl
  | true => exact absurd ((containsSub_iff_occurs _ _).mp hcc) h

theorem doubled_collapse (A fd : List Char)
    (hAlen : 0 < A.length)
    (hhead : ∃ h, (A ++ '.' :: A).head? = some h ∧ h ≠ '.')
    (henum : ∀ c' ∈ (A ++ ['.']).tails,
      c'.isPrefixOf (A ++ '.' :: A) = true → (c' = [] ∨ c' = A ++ ['.']))
    (hfd : ¬ A <:+: fd) :
    pyReplaceLoop (A ++ '.' :: A) A ((A ++ '.' :: A) ++ '.' :: fd) = (A ++ ['.']) ++ fd
    ∧ pyReplaceLoop (A ++ '.' :: A) A ((A ++ ['.']) ++ fd) = (A ++ ['.']) ++ fd := by
  have hPne : (A ++ '.' :: A) ≠ [] := by simp
  have hnoc : containsSub (A ++ '.' :: A) ((A ++ ['.']) ++ fd) = false :=
    contains_false_of_no_occurrence _ _ (not_infix_collapsed A fd hAlen hfd henum)
  have hfd' : containsSub (A ++ '.' :: A) fd = false :=
    contains_false_of_no_occurrence _ _
      (fun hc => hfd ((List.prefix_append A ('.' :: A)).isInfix.trans hc))
  have hdot : containsSub (A ++ '.' :: A) ('.' :: fd) = false := by
    obtain ⟨h, hh, hne⟩ := hhead
    rw [containsSub, hfd', Bool.or_false]
    exact isPrefixOf_false_of_head_ne _ '.' fd h hh hne
  refine ⟨?_, pyReplaceLoop_of_not_contains _ _ _ hnoc⟩
  unfold pyReplaceLoop
  obtain ⟨m, hm⟩ : ∃ m, ((A ++ '.' :: A) ++ '.' :: fd).length = m + 1 :=
    ⟨(A ++ '.' :: A).length + fd.length, by
      rw [List.length_append, List.length_cons]; omega⟩
  rw [hm, collapseFuel]
  have hc0 : containsSub (A ++ '.' :: A) ((A ++ '.' :: A) ++ '.' :: fd) = true :=
    (containsSub_iff_occurs _ _).mpr (List.prefix_append _ _).isInfix
  rw [if_pos hc0]
  have hrep : pyReplace (A ++ '.' :: A) A ((A ++ '.' :: A) ++ '.' :: fd)
      = (A ++ ['.']) ++ fd := by
    unfold pyReplace
    rw [hm, replaceFuel_prefix_step _ A ('.' :: fd) m hPne,
      replaceFuel_of_not_contains _ A m ('.' :: fd) hdot, List.append_cons]
  rw [hrep]
  exact collapseFuel_of_not_contains _ A m _ hnoc

theorem sa_prefix_pat : saRep <+: saPat := by decide

theorem sg_prefix_pat : sgRep <+: sgPat := by decide

theorem saPat_split : saPat = saRep ++ '.' :: saRep := by decide

theorem sgPat_split : sgPat = sgRep ++ '.' :: sgRep := by decide

theorem clean_attribute_congr_data (a b : String) (h : a.data = b.data) :
    clean_attribute a = clean_attribute b := by
  unfold clean_attribute
  rw [h]

theorem C5_sa_part (f : String) (hsa : ¬ ("savings_accounts".data <:+: f.data)) :
    clean_attribute ("savings_accounts.savings_accounts." ++ f)
      = clean_attribute ("savings_accounts." ++ f) := by
  have hdc := doubled_collapse saRep f.data (by decide)
    ⟨'s', by decide, by decide⟩ (by decide) hsa
  have hL : ("savings_accounts.savings_accounts." ++ f).data
      = (saRep ++ '.' :: saRep) ++ '.' :: f.data := by
    rw [String.data_append]
    rfl
  have hR : ("savings_accounts." ++ f).data = (saRep ++ ['.']) ++ f.data := by
    rw [String.data_append]
    rfl
  unfold clean_attribute
  rw [hL, hR, ← saPat_split]
  rw [show pyReplaceLoop saPat saRep (saPat ++ '.' :: f.data)
      = (saRep ++ ['.']) ++ f.data by rw [saPat_split]; exact hdc.1]
  rw [show pyReplaceLoop saPat saRep ((saRep ++ ['.']) ++ f.data)
      = (saRep ++ ['.']) ++ f.data by rw [saPat_split]; exact hdc.2]

theorem C5_sg_part (f : String) (hsa : ¬ ("savings_accounts".data <:+: f.data))
    (hsg : ¬ ("savings_goals".data <:+: f.data)) :
    clean_attribute ("savings_goals.savings_goals." ++ f)
      = clean_attribute ("savings_goals." ++ f) := by
  have hsaPatf : ¬ saPat <:+: f.data :=
    fun hc => hsa (sa_prefix_pat.isInfix.trans hc)
  have hnoc1 : containsSub saPat ((sgPat ++ ['.']) ++ f.data) = false :=
    contains_false_of_no_occurrence _ _
      (not_infix_append_generic saPat (sgPat ++ ['.']) f.data (by decide) hsaPatf (by decide))
  have hnoc2 : containsSub saPat ((sgRep ++ ['.']) ++ f.data) = false :=
    contains_false_of_no_occurrence _ _
      (not_infix_append_generic saPat (sgRep ++ ['.']) f.data (by decide) hsaPatf (by decide))
  have hdc := doubled_collapse sgRep f.data (by decide)
    ⟨'s', by decide, by decide⟩ (by decide) hsg
  have hL : ("savings_goals.savings_goals." ++ f).data = (sgPat ++ ['.']) ++ f.data := by
    rw [String.data_append]
    rfl
  have hR : ("savings_goals." ++ f).data = (sgRep ++ ['.']) ++ f.data := by
    rw [String.data_append]
    rfl
  have hsplitL : (sgPat ++ ['.']) ++ f.data = sgPat ++ '.' :: f.data := by
    rw [List.append_assoc, List.singleton_append]
  unfold clean_attribute
  rw [hL, hR, pyReplaceLoop_of_not_contains saPat saRep _ hnoc1,
    pyReplaceLoop_of_not_contains saPat saRep _ hnoc2, hsplitL]
  rw [show pyReplaceLoop sgPat sgRep (sgPat ++ '.' :: f.data)
      = (sgRep ++ ['.']) ++ f.data by rw [sgPat_split]; exact hdc.1]
  rw [show pyReplaceLoop sgPat sgRep ((sgRep ++ ['.']) ++ f.data)
      = (sgRep ++ ['.']) ++ f.data by rw [sgPat_split]; exact hdc.2]

/-! ## C5: doubled-prefix collapse -/

/-- C5 (counterexample): the normalizer leaves a doubled `user` prefix
intact, so the claimed collapse for every known topic fails at
`user.user.income`. -/
theorem C5_counterexample :
    clean_attribute "user.user.income" = "user.user.income"
    ∧ clean_attribute "user.income" = "user.income"
    ∧ clean_attribute "user.user.income" ≠ clean_attribute "user.income" := by
  refine ⟨by decide, by decide, by decide⟩

/-- C5 (amended): the doubled-prefix collapse holds for the
`savings_accounts` and `savings_goals` topics — for every field token
`f` not containing a savings topic name, `t.t.f` normalizes to the same
value as `t.f` — but not for the other known topics: a doubled `user`
prefix is left intact. -/
theorem C5_doubled_prefix_collapse (f : String)
    (hsa : ¬ ("savings_accounts".data <:+: f.data))
    (hsg : ¬ ("savings_goals".data <:+: f.data)) :
    (clean_attribute ("savings_accounts.savings_accounts." ++ f)
      = clean_attribute ("savings_accounts." ++ f))
    ∧ (clean_attribute ("savings_goals.savings_goals." ++ f)
      = clean_attribute ("savings_goals." ++ f))
    ∧ clean_attribute "user.user.income" ≠ clean_attribute "user.income" :=
  ⟨C5_sa_part f hsa, C5_sg_part f hsa hsg, by decide⟩

/-- C5 (witness): the collapse theorem applied at the field token
`balance`, reproducing the spec's own example. -/
theorem C5_doubled_prefix_collapse_witness :
    clean_attribute "savings_accounts.savings_accounts.balance"
      = clean_attribute "savings_accounts.balance" := by
  have h := (C5_doubled_prefix_collapse "balance" (by decide) (by decide)).1
  rw [show ("savings_accounts.savings_accounts." ++ "balance" : String)
      = "savings_accounts.savings_accounts.balance" from by decide,
    show ("savings_accounts." ++ "balance" : String)
      = "savings_accounts.balance" from by decide] at h
  exact h

/- projection lemmas: a pattern-free string stays pattern-free under the
sgPat collapse, via a blocker character argument -/

theorem replaceFuel_eq_of_not_mem (pat rep : List Char) (ch : Char) (hch : ch ∈ rep) :
    ∀ (n : Nat) (s : List Char), ch ∉ replaceFuel pat rep n s →
      replaceFuel pat rep n s = s := by
  intro n
  induction n with
  | zero => intro s _; rfl
  | succ n ih =>
    intro s hs
    cases s with
    | nil => rfl
    | cons c t =>
      rw [replaceFuel] at hs ⊢
      by_cases hg : pat.isPrefixOf (c :: t) = true ∧ pat ≠ []
      · rw [if_pos hg] at hs
        exact absurd (List.mem_append_left _ hch) hs
      · rw [if_neg hg] at hs ⊢
        rw [ih t (fun hm => hs (List.mem_cons_of_mem _ hm))]

theorem prefix_projects (pat rep : List Char) (ch : Char) (hch : ch ∈ rep)
    (hrp : rep <+: pat) :
    ∀ (n : Nat) (s q : List Char), ch ∉ q → q <+: replaceFuel pat rep n s → q <+: s := by
  intro n
  induction n with
  | zero => intro s q _ h; exact h
  | succ n ih =>
    intro s q hq h
    cases s with
    | nil =>
      have hqnil : q = [] := List.prefix_nil.mp h
      rw [hqnil]
    | cons c t =>
      rw [replaceFuel] at h
      by_cases hg : pat.isPrefixOf (c :: t) = true ∧ pat ≠ []
      · rw [if_pos hg] at h
        rcases prefix_append_cases h with h1 | ⟨b, rfl, hb⟩
        · exact (h1.trans hrp).trans (List.isPrefixOf_iff_prefix.mp hg.1)
        · exact absurd (List.mem_append_left _ hch) hq
      · rw [if_neg hg] at h
        cases q with
        | nil => exact List.nil_prefix
        | cons d q' =>
          rw [List.cons_prefix_cons] at h
          obtain ⟨hdc, h'⟩ := h
          have hq' : ch ∉ q' := fun hm => hq (List.mem_cons_of_mem _ hm)
          exact List.cons_prefix_cons.mpr ⟨hdc, ih t q' hq' h'⟩

theorem suffix_append_cases {q x y : List Char} (h : q <:+ x ++ y) :
    q <:+ y ∨ ∃ a, q = a ++ y ∧ a <:+ x := by
  have h' : q.reverse <+: y.reverse ++ x.reverse := by
    rw [← List.reverse_append]
    exact List.reverse_prefix.mpr h
  rcases prefix_append_cases h' with h1 | ⟨b, hqb, hb⟩
  · left
    exact List.reverse_prefix.mp (by simpa using h1)
  · right
    refine ⟨b.reverse, ?_, ?_⟩
    · have := congrArg List.reverse hqb
      simpa using this
    · have : b.reverse.reverse <+: x.reverse := by simpa using hb
      exact List.reverse_prefix.mp this

theorem suffix_projects (pat rep : List Char) (ch : Char) (hch : ch ∈ rep)
    (hrs : rep <:+ pat) :
    ∀ (n : Nat) (s q : List Char), ch ∉ q → q <:+ replaceFuel pat rep n s → q <:+ s := by
  intro n
  induction n with
  | zero => intro s q _ h; exact h
  | succ n ih =>
    intro s q hq h
    cases s with
    | nil =>
      have hqnil : q = [] := List.suffix_nil.mp h
      rw [hqnil]
    | cons c t =>
      rw [replaceFuel] at h
      by_cases hg : pat.isPrefixOf (c :: t) = true ∧ pat ≠ []
      · rw [if_pos hg] at h
        have hsplit : c :: t = pat ++ (c :: t).drop pat.length := by
          obtain ⟨w, hw⟩ := List.isPrefixOf_iff_prefix.mp hg.1
          rw [← hw, List.drop_left]
        rcases suffix_append_cases h with h1 | ⟨a, rfl, ha⟩
        · have := ih ((c :: t).drop pat.length) q hq h1
          rw [hsplit]
          exact this.trans (List.suffix_append pat _)
        · have hcha : ch ∉ a := fun hm => hq (List.mem_append_left _ hm)
          have hchR : ch ∉ replaceFuel pat rep n ((c :: t).drop pat.length) :=
            fun hm => hq (List.mem_append_right _ hm)
          rw [replaceFuel_eq_of_not_mem pat rep ch hch n _ hchR]
          obtain ⟨u, hu⟩ := ha.trans hrs
          set dr := (c :: t).drop pat.length with hdr
          refine ⟨u, ?_⟩
          conv_rhs => rw [hsplit, ← hu]
          rw [List.append_assoc]
      · rw [if_neg hg] at h
        rcases List.suffix_cons_iff.mp h with h1 | h1
        · have hchR : ch ∉ replaceFuel pat rep n t := by
            intro hm
            apply hq
            rw [h1]
            exact List.mem_cons_of_mem _ hm
          rw [h1, replaceFuel_eq_of_not_mem pat rep ch hch n t hchR]
        · exact (ih t q hq h1).trans (List.suffix_cons c t)

theorem infix_projects (pat rep : List Char) (ch : Char) (hch : ch ∈ rep)
    (hrp : rep <+: pat)
    (htail : ∀ a ∈ rep.tails, a ≠ [] → ch ∉ a → a <:+ pat) :
    ∀ (n : Nat) (s q : List Char), ch ∉ q → q <:+: replaceFuel pat rep n s → q <:+: s := by
  intro n
  induction n with
  | zero => intro s q _ h; exact h
  | succ n ih =>
    intro s q hq h
    cases s with
    | nil =>
      have hqnil : q = [] := List.infix_nil.mp h
      rw [hqnil]
    | cons c t =>
      rw [replaceFuel] at h
      by_cases hg : pat.isPrefixOf (c :: t) = true ∧ pat ≠ []
      · rw [if_pos hg] at h
        have hsplit : c :: t = pat ++ (c :: t).drop pat.length := by
          obtain ⟨w, hw⟩ := List.isPrefixOf_iff_prefix.mp hg.1
          rw [← hw, List.drop_left]
        rcases infix_append_cases h with h1 | h1 | ⟨a, b, rfl, hane, hbne, hsuf, hpre⟩
        · have : q <:+: pat := h1.trans hrp.isInfix
          rw [hsplit]
          exact this.trans (List.prefix_append pat _).isInfix
        · have := ih ((c :: t).drop pat.length) q hq h1
          rw [hsplit]
          exact this.trans (List.suffix_append pat _).isInfix
        · have hcha : ch ∉ a := fun hm => hq (List.mem_append_left _ hm)
          have hchb : ch ∉ b := fun hm => hq (List.mem_append_right _ hm)
          have hapat : a <:+ pat := htail a ((List.mem_tails _ _).mpr hsuf) hane hcha
          have hbdrop : b <+: (c :: t).drop pat.length :=
            prefix_projects pat rep ch hch hrp n _ b hchb hpre
          obtain ⟨u, hu⟩ := hapat
          obtain ⟨w, hw⟩ := hbdrop
          set dr := (c :: t).drop pat.length with hdr
          refine ⟨u, w, ?_⟩
          conv_rhs => rw [hsplit, ← hu, ← hw]
          simp [List.append_assoc]
      · rw [if_neg hg] at h
        rcases List.infix_cons_iff.mp h with h1 | h1
        · cases q with
          | nil => exact List.nil_infix
          | cons d q' =>
            rw [List.cons_prefix_cons] at h1
            obtain ⟨hdc, h'⟩ := h1
            have hq' : ch ∉ q' := fun hm => hq (List.mem_cons_of_mem _ hm)
            have := prefix_projects pat rep ch hch hrp n t q' hq' h'
            exact (List.cons_prefix_cons.mpr ⟨hdc, this⟩ : _ <+: c :: t).isInfix
        · exact (ih t q hq h1).trans (List.suffix_cons c t).isInfix

theorem collapseFuel_preserves_no_occurrence (pat rep : List Char) (ch : Char)
    (hch : ch ∈ rep) (hrp : rep <+: pat)
    (htail : ∀ a ∈ rep.tails, a ≠ [] → ch ∉ a → a <:+ pat)
    (q : List Char) (hq : ch ∉ q) :
    ∀ (n : Nat) (s : List Char), ¬ q <:+: s → ¬ q <:+: collapseFuel pat rep n s := by
  intro n
  induction n with
  | zero => intro s hs; exact hs
  | succ n ih =>
    intro s hs
    rw [collapseFuel]
    by_cases hc : containsSub pat s = true
    · rw [if_pos hc]
      refine ih (pyReplace pat rep s) ?_
      intro hinf
      exact hs (infix_projects pat rep ch hch hrp htail s.length s q hq hinf)
    · rw [if_neg hc]
      exact hs

theorem dropWhile_idem (p : Char → Bool) (l : List Char) :
    (l.dropWhile p).dropWhile p = l.dropWhile p := by
  induction l with
  | nil => rfl
  | cons c t ih =>
    by_cases hc : p c = true
    · rw [List.dropWhile_cons_of_pos hc, ih]
    · have hcf : ¬ (p c = true) := hc
      rw [List.dropWhile_cons_of_neg hcf, List.dropWhile_cons_of_neg hcf]

theorem dropWhile_suffix (p : Char → Bool) (l : List Char) : l.dropWhile p <:+ l := by
  induction l with
  | nil => exact List.suffix_refl _
  | cons c t ih =>
    by_cases hc : p c = true
    · rw [List.dropWhile_cons_of_pos hc]
      exact ih.trans (List.suffix_cons c t)
    · rw [List.dropWhile_cons_of_neg hc]

theorem suffix_reverse_prefix {l x : List Char} (h : l <:+ x.reverse) : l.reverse <+: x := by
  have : l.reverse.reverse <:+ x.reverse := by simpa using h
  exact List.reverse_suffix.mp (by simpa using h)

theorem stripChars_occurs_in (s : List Char) : stripChars s <:+: s := by
  unfold stripChars
  have h1 : (s.dropWhile Char.isWhitespace) <:+ s := dropWhile_suffix _ s
  have h2 : ((s.dropWhile Char.isWhitespace).reverse.dropWhile Char.isWhitespace)
      <:+ (s.dropWhile Char.isWhitespace).reverse := dropWhile_suffix _ _
  have h3 := suffix_reverse_prefix h2
  exact (h3.isInfix).trans h1.isInfix

theorem dropWhile_eq_self_of_prefix (p : Char → Bool) (x y : List Char)
    (hx : x.dropWhile p = x) (hpre : y <+: x) : y.dropWhile p = y := by
  cases y with
  | nil => rfl
  | cons c y' =>
    cases x with
    | nil => exact absurd (List.prefix_nil.mp hpre) (by simp)
    | cons d x' =>
      obtain ⟨hdc, -⟩ := List.cons_prefix_cons.mp hpre
      by_cases hc : p d = true
      · exfalso
        rw [List.dropWhile_cons_of_pos hc] at hx
        have := congrArg List.length hx
        have hlen := (dropWhile_suffix p x').length_le
        simp only [List.length_cons] at this
        omega
      · rw [List.dropWhile_cons_of_neg (hdc ▸ hc)]

theorem stripChars_idem (s : List Char) : stripChars (stripChars s) = stripChars s := by
  unfold stripChars
  have hu : (s.dropWhile Char.isWhitespace).dropWhile Char.isWhitespace
      = s.dropWhile Char.isWhitespace := dropWhile_idem _ s
  set u := s.dropWhile Char.isWhitespace with hudef
  set w := u.reverse.dropWhile Char.isWhitespace with hwdef
  have hvpre : w.reverse <+: u := suffix_reverse_prefix (dropWhile_suffix _ u.reverse)
  have hv1 : (w.reverse).dropWhile Char.isWhitespace = w.reverse :=
    dropWhile_eq_self_of_prefix _ u w.reverse hu hvpre
  rw [hv1]
  have hv2 : (w.reverse.reverse).dropWhile Char.isWhitespace = w.reverse.reverse := by
    rw [List.reverse_reverse]
    exact dropWhile_idem _ _
  rw [hv2, List.reverse_reverse]

theorem not_infix_of_contains_false (P s : List Char) (h : containsSub P s = false) :
    ¬ P <:+: s := by
  intro hc
  exact absurd ((containsSub_iff_occurs P s).mpr hc) (by simp [h])

theorem clean_attribute_idem (x : String) :
    clean_attribute (clean_attribute x) = clean_attribute x := by
  unfold clean_attribute
  set y := pyReplaceLoop saPat saRep x.data with hy
  set z := pyReplaceLoop sgPat sgRep y with hz
  have hdata : (String.mk (stripChars z)).data = stripChars z := rfl
  rw [hdata]
  have hysa : containsSub saPat y = false :=
    pyReplaceLoop_not_contains saPat saRep (by decide) x.data
  have hzsg : containsSub sgPat z = false :=
    pyReplaceLoop_not_contains sgPat sgRep (by decide) y
  have hzsa : ¬ saPat <:+: z := by
    rw [hz]
    unfold pyReplaceLoop
    exact collapseFuel_preserves_no_occurrence sgPat sgRep 'l' (by decide) (by decide)
      (by decide) saPat (by decide) y.length y
      (not_infix_of_contains_false saPat y hysa)
  have hwsa : containsSub saPat (stripChars z) = false :=
    contains_false_of_no_occurrence _ _ (fun hc => hzsa (hc.trans (stripChars_occurs_in z)))
  have hwsg : containsSub sgPat (stripChars z) = false :=
    contains_false_of_no_occurrence _ _
      (fun hc => (not_infix_of_contains_false sgPat z hzsg) (hc.trans (stripChars_occurs_in z)))
  rw [pyReplaceLoop_of_not_contains saPat saRep _ hwsa,
    pyReplaceLoop_of_not_contains sgPat sgRep _ hwsg,
    stripChars_idem]

/-! ## Membership lemmas for the reconciliation pipelines -/

/-- Membership through insertion. -/
theorem mem_insertSorted (a x : String) :
    ∀ l : List String, a ∈ insertSorted x l ↔ a = x ∨ a ∈ l := by
  intro l
  induction l with
  | nil => simp [insertSorted]
  | cons b t ih =>
    rw [insertSorted]
    by_cases hx : pyStrLe x b = true
    · rw [if_pos hx]
      simp
    · rw [if_neg hx]
      simp only [List.mem_cons, ih]
      tauto

/-- Sorting does not change membership. -/
theorem mem_pySorted (a : String) (l : List String) : a ∈ pySorted l ↔ a ∈ l := by
  unfold pySorted
  induction l with
  | nil => simp
  | cons b t ih =>
    rw [List.foldr_cons, mem_insertSorted]
    simp [ih]

/-- Every element of the deduplication pass is the cleaned form of some
input element. -/
theorem mem_dedupClean (a : String) :
    ∀ (l seen : List String), a ∈ dedupClean seen l →
      ∃ b ∈ l, a = clean_attribute b := by
  intro l
  induction l with
  | nil => intro seen h; exact absurd h (by simp [dedupClean])
  | cons x rest ih =>
    intro seen h
    rw [dedupClean] at h
    by_cases hc : seen.contains (pyLower (clean_attribute x)) = true
    · rw [if_pos hc] at h
      obtain ⟨b, hb, hab⟩ := ih seen h
      exact ⟨b, List.mem_cons_of_mem _ hb, hab⟩
    · rw [if_neg hc] at h
      rcases List.mem_cons.mp h with h1 | h1
      · exact ⟨x, List.mem_cons_self _ _, h1⟩
      · obtain ⟨b, hb, hab⟩ := ih _ h1
        exact ⟨b, List.mem_cons_of_mem _ hb, hab⟩

/-- Every attribute kept by the first chat validation loop is the
cleaned form of some string. -/
theorem chatCollect_image (acc : List String) :
    ∀ (l seen : List String) (b : String), b ∈ (chatCollect acc seen l).fst →
      ∃ c, b = clean_attribute c := by
  intro l
  induction l with
  | nil => intro seen b h; exact absurd h (by simp [chatCollect])
  | cons x rest ih =>
    intro seen b h
    rw [chatCollect] at h
    by_cases hc : seen.contains (pyLower (clean_attribute x)) = true
    · rw [if_pos hc] at h
      exact ih seen b h
    · rw [if_neg hc] at h
      by_cases ha : acc.contains (clean_attribute x) = true
      · rw [if_pos ha] at h
        rcases List.mem_cons.mp h with h1 | h1
        · exact ⟨x, h1⟩
        · exact ih _ b h1
      · rw [if_neg ha] at h
        by_cases hp : knownPrefixes.any
            (fun p => p.data.isPrefixOf (clean_attribute x).data) = true
        · rw [if_pos hp] at h
          rcases List.mem_cons.mp h with h1 | h1
          · exact ⟨x, h1⟩
          · exact ih _ b h1
        · rw [if_neg hp] at h
          exact ih seen b h

/-- Every attribute appended by the second chat validation loop is the
cleaned form of some string. -/
theorem chatPhase2_image :
    ∀ (l seen : List String) (b : String), b ∈ chatPhase2 seen l →
      ∃ c, b = clean_attribute c := by
  intro l
  induction l with
  | nil => intro seen b h; exact absurd h (by simp [chatPhase2])
  | cons x rest ih =>
    intro seen b h
    rw [chatPhase2] at h
    by_cases hc : seen.contains (pyLower (clean_attribute x)) = true
    · rw [if_pos hc] at h
      exact ih seen b h
    · rw [if_neg hc] at h
      rcases List.mem_cons.mp h with h1 | h1
      · exact ⟨x, h1⟩
      · exact ih _ b h1

/-- Every element of the chat validated list is the cleaned form of
some string, hence a fixed point of `clean_attribute`. -/
theorem chatValidated_clean_fixed (raw acc : List String) (b : String)
    (h : b ∈ chatValidatedAttributes raw acc) : clean_attribute b = b := by
  unfold chatValidatedAttributes at h
  rcases List.mem_append.mp h with h1 | h1
  · obtain ⟨c, rfl⟩ := chatCollect_image acc _ [] b h1
    exact clean_attribute_idem c
  · obtain ⟨c, rfl⟩ := chatPhase2_image acc _ b h1
    exact clean_attribute_idem c

/-! ## C1: consent filtering is applied last and wins -/

/-- C1: an attribute whose stored permission is `false` never appears in
the user-facing attribute list of any of the four tracked AI operations
(loan eligibility, profile explanation, comprehensive insights, chat
query), even though the unfiltered validated list and the audit record
may contain it: the consent filter is applied after validation. -/
theorem C1_consent_filter_last (doc : PermissionsDoc) (a : String)
    (hden : check_attribute_permission doc a = false) :
    (∀ ai_raw acc_raw, a ∉ loanFinalAttributes doc ai_raw acc_raw)
    ∧ (∀ attrs, a ∉ profileFinalAttributes doc attrs)
    ∧ (∀ attrs, a ∉ insightsFinalAttributes doc attrs)
    ∧ (∀ ai_raw acc, a ∉ chatFinalAttributes doc ai_raw acc) := by
  have hfilter : ∀ l, a ∉ filter_allowed_attributes doc l := by
    intro l hmem
    have := (List.mem_filter.mp hmem).2
    rw [hden] at this
    exact absurd this (by simp)
  refine ⟨?_, ?_, ?_, ?_⟩
  · intro ai_raw acc_raw hmem
    exact hfilter _ hmem
  · intro attrs hmem
    exact hfilter _ hmem
  · intro attrs hmem
    exact hfilter _ hmem
  · intro ai_raw acc hmem
    unfold chatFinalAttributes at hmem
    rw [mem_pySorted] at hmem
    obtain ⟨b, hb, hab⟩ := mem_dedupClean a _ [] hmem
    have hbv : b ∈ chatValidatedAttributes ai_raw acc := (List.mem_filter.mp hb).1
    have hfix : clean_attribute b = b := chatValidated_clean_fixed ai_raw acc b hbv
    rw [hab, hfix] at hden
    have := (List.mem_filter.mp hb).2
    rw [hden] at this
    exact absurd this (by simp)

/-- C1 (witness): the theorem applied to a user who has denied
`user.income`, on inputs where that attribute is genuinely validated;
it is present in the audit-side validated list yet absent from every
user-facing list. -/
theorem C1_consent_filter_last_witness :
    check_attribute_permission (some [("user.income", false)]) "user.income" = false
    ∧ "user.income" ∈ (loanValidated ["user.income"] ["user.income"]).fst
    ∧ "user.income" ∉
        loanFinalAttributes (some [("user.income", false)]) ["user.income"] ["user.income"]
    ∧ "user.income" ∉
        chatFinalAttributes (some [("user.income", false)]) ["user.income"] ["user.income"] :=
  ⟨by decide, by decide,
    (C1_consent_filter_last (some [("user.income", false)]) "user.income"
      (by decide)).1 ["user.income"] ["user.income"],
    (C1_consent_filter_last (some [("user.income", false)]) "user.income"
      (by decide)).2.2.2 ["user.income"] ["user.income"]⟩

/-! ## C2: the validated set and fabricated claims -/

/-- A self-reported attribute with a known topic prefix is always
retained (up to the case-insensitive key) by the first chat validation
loop, whether or not it was accessed. -/
theorem chatCollect_retains (acc : List String) :
    ∀ (l seen : List String) (b : String), b ∈ l →
      (∀ x ∈ l, clean_attribute x = x) →
      knownPrefixes.any (fun p => p.data.isPrefixOf b.data) = true →
      (pyLower b ∈ seen ∨ pyLower b ∈ (chatCollect acc seen l).fst.map pyLower) := by
  intro l
  induction l with
  | nil => intro seen b hb; exact absurd hb (by simp)
  | cons x rest ih =>
    intro seen b hb hcl hpre
    have hx : clean_attribute x = x := hcl x (List.mem_cons_self _ _)
    rcases List.mem_cons.mp hb with rfl | hbr
    · rw [chatCollect, hx]
      by_cases hc : seen.contains (pyLower b) = true
      · left
        exact (contains_iff_mem seen (pyLower b)).mp hc
      · rw [if_neg hc]
        by_cases ha : acc.contains b = true
        · rw [if_pos ha]
          right
          exact List.mem_map_of_mem _ (List.mem_cons_self _ _)
        · rw [if_neg ha, if_pos hpre]
          right
          exact List.mem_map_of_mem _ (List.mem_cons_self _ _)
    · have hcl' : ∀ y ∈ rest, clean_attribute y = y :=
        fun y hy => hcl y (List.mem_cons_of_mem _ hy)
      rw [chatCollect, hx]
      by_cases hc : seen.contains (pyLower x) = true
      · rw [if_pos hc]
        exact ih seen b hbr hcl' hpre
      · rw [if_neg hc]
        by_cases ha : acc.contains x = true
        · rw [if_pos ha]
          rcases ih (pyLower x :: seen) b hbr hcl' hpre with h1 | h1
          · rcases List.mem_cons.mp h1 with h2 | h2
            · right
              rw [h2]
              exact List.mem_map_of_mem _ (List.mem_cons_self _ _)
            · left; exact h2
          · right
            rw [List.map_cons]
            exact List.mem_cons_of_mem _ h1
        · rw [if_neg ha]
          by_cases hp : knownPrefixes.any (fun p => p.data.isPrefixOf x.data) = true
          · rw [if_pos hp]
            rcases ih (pyLower x :: seen) b hbr hcl' hpre with h1 | h1
            · rcases List.mem_cons.mp h1 with h2 | h2
              · right
                rw [h2]
                exact List.mem_map_of_mem _ (List.mem_cons_self _ _)
              · left; exact h2
            · right
              rw [List.map_cons]
              exact List.mem_cons_of_mem _ h1
          · rw [if_neg hp]
            exact ih seen b hbr hcl' hpre

/-- C2 (counterexample): the chat reconciliation keeps the fabricated
self-reported attribute `user.bogus` (never accessed) in its validated
list, because it starts with a known topic prefix — the claim that
every reconciliation path drops fabricated claims is false. -/
theorem C2_counterexample :
    "user.bogus" ∈ chatValidatedAttributes ["user.bogus"] ["user.income"]
    ∧ "user.bogus" ∉ ["user.income"] := by
  refine ⟨by decide, by decide⟩

/-- C2 (amended): in the loan-eligibility reconciliation
(`validate_attributes`) the validated list is exactly `matched ++
missing` and a fabricated self-reported attribute (reported but not
accessed) never enters it; in the chat-query path, however, a
self-reported attribute whose cleaned form begins with a known topic
prefix is always retained in the validated list (up to case-insensitive
deduplication) even when it was never accessed — only fabrications
without a known prefix are dropped there. -/
theorem C2_validated_set (sr acc : List String) (a : String)
    (raw accessed : List String) (b : String) :
    ((validate_attributes sr acc).fst = matchedAttrs sr acc ++ missingAttrs sr acc)
    ∧ (a ∈ sr → a ∉ acc → a ∉ (validate_attributes sr acc).fst)
    ∧ (b ∈ (raw.filter (fun x => !(x == ""))).map clean_attribute →
        knownPrefixes.any (fun p => p.data.isPrefixOf b.data) = true →
        pyLower b ∈ (chatValidatedAttributes raw accessed).map pyLower) := by
  refine ⟨rfl, ?_, ?_⟩
  · intro hin hout hmem
    rcases List.mem_append.mp hmem with h1 | h1
    · exact hout (mem_matchedAttrs.mp h1).2
    · exact hout (mem_missingAttrs.mp h1).1
  · intro hb hpre
    have hcl : ∀ x ∈ (raw.filter (fun x => !(x == ""))).map clean_attribute,
        clean_attribute x = x := by
      intro x hx
      obtain ⟨c, -, rfl⟩ := List.mem_map.mp hx
      exact clean_attribute_idem c
    have := chatCollect_retains accessed _ [] b hb hcl hpre
    rcases this with h1 | h1
    · exact absurd h1 (by simp)
    · unfold chatValidatedAttributes
      rw [List.map_append]
      exact List.mem_append_left _ h1

/-- C2 (witness): the theorem applied to the fabricated-claim example —
`user.bogus` is excluded from the loan validated list but retained by
the chat path. -/
theorem C2_validated_set_witness :
    "user.bogus" ∉ (validate_attributes ["user.bogus"] ["user.income"]).fst
    ∧ pyLower "user.bogus" ∈
        (chatValidatedAttributes ["user.bogus"] ["user.income"]).map pyLower :=
  ⟨(C2_validated_set ["user.bogus"] ["user.income"] "user.bogus" [] [] "x").2.1
      (by decide) (by decide),
   (C2_validated_set [] [] "x" ["user.bogus"] ["user.income"] "user.bogus").2.2
      (by decide) (by decide)⟩
